import Mathlib

/-!
# Verification of the PII/PHI redaction pipeline and its web frontend

This development embeds, in Lean, the observable behaviour of the
`info_redaction` repository: the frontend upload validation
(`UploadZone.handleFiles`), the frontend progress-to-step mapping
(`ProcessingPipeline`), and the core redaction pipeline
(parser → detector → replacement generator → coordinate mapper →
redaction engine → overlay & log builder).  Text is modelled as
`List Char`; machine floats carrying progress percentages are modelled
as exact rationals (every comparison boundary `k * 100/8` is exactly
representable in binary floating point, so the branch structure is
preserved).  Each theorem states one specified property of these
definitions and is proved without axioms beyond the usual three.
-/

/-- Lower-case a character list, mirroring JavaScript `toLowerCase()`
on the ASCII filenames the upload widget deals with. -/
def lowerL (l : List Char) : List Char := l.map Char.toLower

/-! ## Upload validation (`handleFiles` in `UploadZone`, `src/info_redaction/src/services/api.ts`) -/

/-- A selected file as the upload widget sees it: a name and a byte size. -/
structure UploadFile where
  name : List Char
  size : Nat
deriving DecidableEq

/-- Result of `handleFiles`: nothing selected, an error status with the
message shown to the user, or a file staged for processing. -/
inductive UploadOutcome
  | noFiles
  | rejected (msg : List Char)
  | staged (f : UploadFile)
deriving DecidableEq

/-- The suffix `handleFiles` tests the lower-cased name against. -/
def pdfSuffix : List Char := ".pdf".data

/-- The 10 MB limit from `handleFiles` (`const maxSize = 10 * 1024 * 1024`). -/
def maxUploadSize : Nat := 10 * 1024 * 1024

/-- `handleFiles` from `UploadZone`: takes the first file only, rejects a
name whose lower-casing does not end in `.pdf`, rejects a size strictly
above `maxSize`, otherwise stages the file. -/
def handleFiles (files : List UploadFile) : UploadOutcome :=
  match files with
  | [] => .noFiles
  | f :: _ =>
    if ¬ (pdfSuffix <:+ lowerL f.name) then
      .rejected "Only PDF files are supported".data
    else if f.size > maxUploadSize then
      .rejected "File size must be less than 10MB".data
    else
      .staged f

/-! ## Progress-to-step mapping (`ProcessingPipeline`, `src/unnamed/part_002`) -/

/-- `const stepSize = 100 / 8` — one eighth of the progress range per step. -/
def stepSize : ℚ := 100 / 8

/-- The active pipeline step for a reported progress value, mirroring the
if/else-if chain of the polling effect in `ProcessingPipeline`. -/
def currentStepIndex (p : ℚ) : Nat :=
  if p ≤ stepSize then 0
  else if p ≤ stepSize * 2 then 1
  else if p ≤ stepSize * 3 then 2
  else if p ≤ stepSize * 4 then 3
  else if p ≤ stepSize * 5 then 4
  else if p ≤ stepSize * 6 then 5
  else if p ≤ stepSize * 7 then 6
  else 7

/-- Display status of one pipeline step. -/
inductive StepState
  | pending
  | active
  | completed
deriving DecidableEq

/-- The per-step status update applied by `setSteps`: steps before the
current index are completed, the current one is active, later ones pending. -/
def stepDisplay (p : ℚ) (i : Nat) : StepState :=
  if i < currentStepIndex p then .completed
  else if i = currentStepIndex p then .active
  else .pending

/-! ## Theorems about the upload validation (claim C10) -/

/-- **C10.** `handleFiles` stages a document iff the first selected file's
lower-cased name ends in `.pdf` and its size is at most `10*1024*1024`
bytes; the size guard is a strict greater-than, so a file of exactly
`10485760` bytes is accepted even though the error message promises
"less than 10MB"; a wrong extension or an oversized file produces the
corresponding error status; and only the first file of a multi-file
selection is ever considered. -/
theorem handleFiles_staging (f : UploadFile) (rest : List UploadFile) :
    handleFiles (f :: rest) = handleFiles [f] ∧
    (handleFiles (f :: rest) = .staged f ↔
      (pdfSuffix <:+ lowerL f.name) ∧ f.size ≤ 10485760) ∧
    (¬ (pdfSuffix <:+ lowerL f.name) →
      handleFiles (f :: rest) = .rejected "Only PDF files are supported".data) ∧
    ((pdfSuffix <:+ lowerL f.name) → 10485760 < f.size →
      handleFiles (f :: rest) = .rejected "File size must be less than 10MB".data) ∧
    ((pdfSuffix <:+ lowerL f.name) → f.size = 10485760 →
      handleFiles (f :: rest) = .staged f) := by
  by_cases h1 : pdfSuffix <:+ lowerL f.name
  · by_cases h2 : f.size > maxUploadSize
    · have e : ∀ r : List UploadFile,
          handleFiles (f :: r) = .rejected "File size must be less than 10MB".data := by
        intro r; simp [handleFiles, h1, h2]
      have h2' : 10485760 < f.size := by
        have : maxUploadSize = 10485760 := by norm_num [maxUploadSize]
        omega
      refine ⟨(e rest).trans (e []).symm, ?_, fun h => absurd h1 h,
        fun _ _ => e rest, fun _ hsz => absurd hsz (by omega)⟩
      rw [e rest]
      constructor
      · intro h; exact absurd h (by simp)
      · rintro ⟨-, hle⟩; omega
    · have e : ∀ r : List UploadFile, handleFiles (f :: r) = .staged f := by
        intro r; simp [handleFiles, h1, h2]
      have h2' : f.size ≤ 10485760 := by
        have : maxUploadSize = 10485760 := by norm_num [maxUploadSize]
        omega
      refine ⟨(e rest).trans (e []).symm, ?_, fun h => absurd h1 h,
        fun _ hsz => absurd hsz (by omega), fun _ _ => e rest⟩
      rw [e rest]
      exact ⟨fun _ => ⟨h1, h2'⟩, fun _ => rfl⟩
  · have e : ∀ r : List UploadFile,
        handleFiles (f :: r) = .rejected "Only PDF files are supported".data := by
      intro r; simp [handleFiles, h1]
    refine ⟨(e rest).trans (e []).symm, ?_, fun _ => e rest,
      fun h => absurd h h1, fun h => absurd h h1⟩
    rw [e rest]
    constructor
    · intro h; exact absurd h (by simp)
    · rintro ⟨hpdf, -⟩; exact absurd hpdf h1

/-- Witness for C10: a concrete `.PDF` file of exactly 10485760 bytes,
followed by a second file that is ignored, is staged. -/
theorem handleFiles_staging_witness :
    handleFiles [⟨"Report.PDF".data, 10485760⟩, ⟨"notes.txt".data, 7⟩] =
      .staged ⟨"Report.PDF".data, 10485760⟩ :=
  ((handleFiles_staging ⟨"Report.PDF".data, 10485760⟩ [⟨"notes.txt".data, 7⟩]).2.1).mpr
    ⟨by decide, by decide⟩

/-! ## Theorems about the progress-to-step mapping (claim C8) -/

/-- If `p` is above boundary `k` and at most boundary `j+1`, then `k ≤ j`. -/
lemma stepBound_le (p : ℚ) (k j : Nat) (h : stepSize * k < p)
    (hb : p ≤ stepSize * ((j : ℚ) + 1)) : k ≤ j := by
  have hs : (0:ℚ) < stepSize := by norm_num [stepSize]
  have hq : (k:ℚ) < (j:ℚ) + 1 := (mul_lt_mul_left hs).mp (lt_of_lt_of_le h hb)
  have : k < j + 1 := by exact_mod_cast hq
  omega

/-- `currentStepIndex` never exceeds 7. -/
lemma currentStepIndex_le7 (p : ℚ) : currentStepIndex p ≤ 7 := by
  unfold currentStepIndex
  split_ifs <;> omega

/-- If `p` is above boundary `k ≤ 7` then the active step is at least `k`. -/
lemma currentStepIndex_ge (p : ℚ) (k : Nat) (hk : k ≤ 7)
    (h : stepSize * k < p) : k ≤ currentStepIndex p := by
  unfold currentStepIndex
  split_ifs with h1 h2 h3 h4 h5 h6 h7
  · exact stepBound_le p k 0 h (by push_cast; linarith)
  · exact stepBound_le p k 1 h (by push_cast; linarith)
  · exact stepBound_le p k 2 h (by push_cast; linarith)
  · exact stepBound_le p k 3 h (by push_cast; linarith)
  · exact stepBound_le p k 4 h (by push_cast; linarith)
  · exact stepBound_le p k 5 h (by push_cast; linarith)
  · exact stepBound_le p k 6 h (by push_cast; linarith)
  · omega

/-- If `p` is at most boundary `k+1` then the active step is at most `k`. -/
lemma currentStepIndex_le (p : ℚ) (k : Nat)
    (h : p ≤ stepSize * ((k : ℚ) + 1)) : currentStepIndex p ≤ k := by
  unfold currentStepIndex
  split_ifs with h1 h2 h3 h4 h5 h6 h7
  · omega
  · exact stepBound_le p 1 k (by push_cast; linarith [not_le.mp h1]) h
  · exact stepBound_le p 2 k (by push_cast; linarith [not_le.mp h2]) h
  · exact stepBound_le p 3 k (by push_cast; linarith [not_le.mp h3]) h
  · exact stepBound_le p 4 k (by push_cast; linarith [not_le.mp h4]) h
  · exact stepBound_le p 5 k (by push_cast; linarith [not_le.mp h5]) h
  · exact stepBound_le p 6 k (by push_cast; linarith [not_le.mp h6]) h
  · exact stepBound_le p 7 k (by push_cast; linarith [not_le.mp h7]) h

/-- The active step's lower boundary is strictly below `p`. -/
lemma currentStepIndex_lower (p : ℚ) (h0 : 0 < p) :
    stepSize * (currentStepIndex p : ℚ) < p := by
  unfold currentStepIndex
  split_ifs with h1 h2 h3 h4 h5 h6 h7 <;> push_cast <;>
    first
      | simpa using h0
      | linarith [not_le.mp h1]
      | linarith [not_le.mp h2]
      | linarith [not_le.mp h3]
      | linarith [not_le.mp h4]
      | linarith [not_le.mp h5]
      | linarith [not_le.mp h6]
      | linarith [not_le.mp h7]

/-- Below step 7, `p` is at most the active step's upper boundary. -/
lemma currentStepIndex_upper (p : ℚ) (h7 : currentStepIndex p ≠ 7) :
    p ≤ stepSize * ((currentStepIndex p : ℚ) + 1) := by
  revert h7
  unfold currentStepIndex
  split_ifs with h1 h2 h3 h4 h5 h6 h7 <;> intro hne <;> push_cast <;>
    first
      | linarith
      | omega

/-- **C8.** For progress `p` in `(0, 100]` while a job is processing, the
frontend maps `p` to exactly one of the eight pipeline steps: with
`stepSize = 100/8`, step `i` (0-based, `i < 7`) is the active step iff
`stepSize*i < p ≤ stepSize*(i+1)`, and step 7 is active for all
`p > stepSize*7`; every step before the active one is displayed as
completed and every step after it as pending. -/
theorem progress_step_mapping (p : ℚ) (h0 : 0 < p) (h100 : p ≤ 100) :
    (∀ i : Nat, i < 7 →
      (currentStepIndex p = i ↔ stepSize * i < p ∧ p ≤ stepSize * (i + 1))) ∧
    (currentStepIndex p = 7 ↔ stepSize * 7 < p) ∧
    (∀ i : Nat, i < currentStepIndex p → stepDisplay p i = .completed) ∧
    stepDisplay p (currentStepIndex p) = .active ∧
    (∀ i : Nat, currentStepIndex p < i → stepDisplay p i = .pending) := by
  refine ⟨?_, ?_, ?_, ?_, ?_⟩
  · intro i hi
    constructor
    · rintro rfl
      refine ⟨currentStepIndex_lower p h0, currentStepIndex_upper p (by omega)⟩
    · rintro ⟨hl, hr⟩
      have hge := currentStepIndex_ge p i (by omega) hl
      have hle := currentStepIndex_le p i hr
      omega
  · constructor
    · intro h
      have := currentStepIndex_lower p h0
      rw [h] at this
      exact_mod_cast this
    · intro h
      have hge := currentStepIndex_ge p 7 (by omega) (by exact_mod_cast h)
      have hle := currentStepIndex_le7 p
      omega
  · intro i hlt
    unfold stepDisplay
    rw [if_pos hlt]
  · unfold stepDisplay
    rw [if_neg (lt_irrefl _), if_pos rfl]
  · intro i hgt
    unfold stepDisplay
    rw [if_neg (by omega), if_neg (by omega)]

/-- Witness for C8: progress 40 activates step 3 ("Create Text PDF"),
since `stepSize*3 = 37.5 < 40 ≤ 50 = stepSize*4`. -/
theorem progress_step_mapping_witness : currentStepIndex 40 = 3 :=
  ((progress_step_mapping 40 (by norm_num) (by norm_num)).1 3 (by norm_num)).mpr
    ⟨by norm_num [stepSize], by norm_num [stepSize]⟩

/-! ## Core pipeline data model

The backend pipeline itself (`main.py` / `app3.py`) is not part of the
shown repository surface, so the definitions below are modelled from the
specification of the pipeline, with text represented as `List Char`. -/

/-- Modelled from the spec: the per-span redaction action (§3,
`PiiSpan.action ∈ {anonymize, dummy_replacement, rewrite, encrypt}`);
the backend implementation of the action type is not in the repo. -/
inductive RedactAction
  | anonymize
  | dummy_replacement
  | rewrite
  | encrypt
deriving DecidableEq

/-- Modelled from the spec: the PII/PHI category of a span (§3);
the backend implementation is not in the repo. -/
inductive PiiCategory
  | pii
  | phi
deriving DecidableEq

/-- Modelled from the spec: the global text replacement mode
(§6, `text_redaction_mode ∈ {dummy, anonymize}`); the backend
implementation is not in the repo. -/
inductive TextMode
  | dummy
  | anonymizeAll
deriving DecidableEq

/-- Modelled from the spec: the `RedactionPolicy` record (§3) — the
global text mode, the per-type action mapping, the confidence
threshold and the overlay switch; the backend implementation is not
in the repo. -/
structure RedactionPolicy where
  textMode : TextMode
  typeAction : String → RedactAction
  threshold : ℚ
  createOverlay : Bool

/-- Modelled from the spec: the action resolved for a span type
(§4.3, §6): in anonymize mode every text span is anonymized, in dummy
mode the per-type policy mapping decides; the backend implementation
is not in the repo. -/
def actionFor (pol : RedactionPolicy) (t : String) : RedactAction :=
  match pol.textMode with
  | .anonymizeAll => .anonymize
  | .dummy => pol.typeAction t

/-- Modelled from the spec: a detected sensitive span (§3 `PiiSpan`)
with its type, category, exact source substring, confidence, and
text-space location (page, element, character range); the backend
implementation is not in the repo. -/
structure PiiSpan where
  type : String
  category : PiiCategory
  original_text : List Char
  confidence : ℚ
  page : Nat
  elem : Nat
  start : Nat
  stop : Nat
deriving DecidableEq

/-- Default span used by positional `getD` lookups. -/
def noSpan : PiiSpan := ⟨"", .pii, [], 0, 0, 0, 0, 0⟩

/-! ## Replacement Generator -/

/-- Modelled from the spec: the anonymize placeholder — a fixed-format
bracketed tag encoding the type (§4.3, e.g. `[EMAIL_REDACTED]`),
deterministic given the type, no external call; the backend
implementation is not in the repo. -/
def anonymizeToken (t : String) : List Char :=
  "[".data ++ t.data.map Char.toUpper ++ "_REDACTED]".data

/-- A span enriched by the Replacement Generator with its replacement
text, resolved action and degraded-generation flag. -/
structure GenSpan where
  span : PiiSpan
  replacement : List Char
  action : RedactAction
  degraded : Bool
deriving DecidableEq

/-- Default generated span used by positional `getD` lookups. -/
def noGen : GenSpan := ⟨noSpan, [], .anonymize, false⟩

/-- The replacement cache key (§4.3): the pair `(type, original_text)`. -/
def keyOf (s : PiiSpan) : String × List Char := (s.type, s.original_text)

/-- Association-list lookup used for the per-job replacement cache. -/
def lookupC {α β : Type} [DecidableEq α] : List (α × β) → α → Option β
  | [], _ => none
  | (k, v) :: rest, key => if key = k then some v else lookupC rest key

/-- Modelled from the spec: the per-job generator state — the
replacement cache keyed by `(type, original_text)` plus a counter of
calls made to the external generation capability (§4.3); the backend
implementation is not in the repo. -/
structure GenState where
  cache : List ((String × List Char) × List Char)
  calls : Nat
deriving DecidableEq

/-- The injected external generation capability (§9): given the running
call count, a type and an original text, it may produce a replacement
or fail.  Indexing by the call count lets distinct calls answer
differently, so consistency can only come from the cache. -/
def GenOracle : Type := Nat → String → List Char → Option (List Char)

/-- Modelled from the spec (§4.3): produce the replacement for one
span.  The anonymize action needs no external call; every other action
consults the cache first, then the external capability; a failed call
degrades to the anonymize placeholder for that one span and sets the
degraded flag; whatever replacement is produced on a cache miss is
cached under `(type, original_text)`.  The backend implementation is
not in the repo. -/
def processSpan (pol : RedactionPolicy) (gen : GenOracle) (st : GenState)
    (s : PiiSpan) : GenSpan × GenState :=
  match actionFor pol s.type with
  | .anonymize => (⟨s, anonymizeToken s.type, .anonymize, false⟩, st)
  | a =>
    match lookupC st.cache (keyOf s) with
    | some r => (⟨s, r, a, false⟩, st)
    | none =>
      match gen st.calls s.type s.original_text with
      | some r => (⟨s, r, a, false⟩, ⟨(keyOf s, r) :: st.cache, st.calls + 1⟩)
      | none =>
        (⟨s, anonymizeToken s.type, a, true⟩,
         ⟨(keyOf s, anonymizeToken s.type) :: st.cache, st.calls + 1⟩)

/-- Modelled from the spec (§4.3): run the Replacement Generator over a
span list, threading the per-job state; the backend implementation is
not in the repo. -/
def genAux (pol : RedactionPolicy) (gen : GenOracle) :
    List PiiSpan → GenState → List GenSpan × GenState
  | [], st => ([], st)
  | s :: rest, st =>
    let p := processSpan pol gen st s
    let q := genAux pol gen rest p.2
    (p.1 :: q.1, q.2)

/-- Modelled from the spec (§4.3): the Replacement Generator — enrich
every detected span with a replacement, starting from an empty per-job
cache; the backend implementation is not in the repo. -/
def generate (pol : RedactionPolicy) (gen : GenOracle)
    (spans : List PiiSpan) : List GenSpan :=
  (genAux pol gen spans ⟨[], 0⟩).1

/-! ## Generator lemmas -/

lemma genAux_length (pol : RedactionPolicy) (gen : GenOracle) :
    ∀ (l : List PiiSpan) (st : GenState),
      (genAux pol gen l st).1.length = l.length
  | [], _ => rfl
  | _ :: rest, st => by
    simp [genAux, genAux_length pol gen rest]

lemma genAux_span (pol : RedactionPolicy) (gen : GenOracle) :
    ∀ (l : List PiiSpan) (st : GenState) (i : Nat), i < l.length →
      ((genAux pol gen l st).1.getD i noGen).span = l.getD i noSpan
  | [], _, i, hi => by simp at hi
  | s :: rest, st, 0, _ => by
    have hs : ((processSpan pol gen st s).1).span = s := by
      cases ha : actionFor pol s.type <;> simp only [processSpan, ha] <;>
        rcases hl : lookupC st.cache (keyOf s) with - | r <;>
          simp only [hl] <;>
            rcases hg : gen st.calls s.type s.original_text with - | r' <;>
              simp [hg]
    simp [genAux, hs]
  | s :: rest, st, i + 1, hi => by
    have := genAux_span pol gen rest (processSpan pol gen st s).2 i
      (by simpa using hi)
    simpa [genAux] using this

lemma processSpan_span (pol : RedactionPolicy) (gen : GenOracle)
    (st : GenState) (s : PiiSpan) : ((processSpan pol gen st s).1).span = s := by
  cases ha : actionFor pol s.type <;> simp only [processSpan, ha] <;>
    rcases hl : lookupC st.cache (keyOf s) with - | r <;>
      simp only [hl] <;>
        rcases hg : gen st.calls s.type s.original_text with - | r' <;>
          simp [hg]

lemma processSpan_cache_mono (pol : RedactionPolicy) (gen : GenOracle)
    (st : GenState) (s : PiiSpan) (k : String × List Char) (r : List Char)
    (h : lookupC st.cache k = some r) :
    lookupC (processSpan pol gen st s).2.cache k = some r := by
  have hne : ∀ v, lookupC st.cache (keyOf s) = none →
      lookupC ((keyOf s, v) :: st.cache) k = some r := by
    intro v hnone
    have : k ≠ keyOf s := by
      intro he
      rw [he, hnone] at h
      exact (Option.noConfusion h)
    simpa [lookupC, this] using h
  cases ha : actionFor pol s.type <;> simp only [processSpan, ha] <;>
    first
      | exact h
      | (rcases hl : lookupC st.cache (keyOf s) with - | v
         · rcases hg : gen st.calls s.type s.original_text with - | r' <;>
             simp [hg, hne _ hl]
         · simpa using h)

lemma genAux_cache_mono (pol : RedactionPolicy) (gen : GenOracle) :
    ∀ (l : List PiiSpan) (st : GenState) (k : String × List Char)
      (r : List Char), lookupC st.cache k = some r →
      lookupC (genAux pol gen l st).2.cache k = some r
  | [], _, _, _, h => h
  | s :: rest, st, k, r, h => by
    have h1 := processSpan_cache_mono pol gen st s k r h
    have h2 := genAux_cache_mono pol gen rest (processSpan pol gen st s).2 k r h1
    simpa [genAux] using h2

lemma processSpan_cached (pol : RedactionPolicy) (gen : GenOracle)
    (st : GenState) (s : PiiSpan)
    (ha : actionFor pol s.type ≠ RedactAction.anonymize) :
    lookupC (processSpan pol gen st s).2.cache (keyOf s) =
      some (processSpan pol gen st s).1.replacement := by
  cases hact : actionFor pol s.type
  · exact absurd hact ha
  all_goals
    simp only [processSpan, hact] <;>
      rcases hl : lookupC st.cache (keyOf s) with - | v <;> simp only [hl]
  all_goals
    first
      | (rcases hg : gen st.calls s.type s.original_text with - | r' <;>
          simp [hg, lookupC])
      | simpa [lookupC] using hl

lemma processSpan_anon (pol : RedactionPolicy) (gen : GenOracle)
    (st : GenState) (s : PiiSpan)
    (ha : actionFor pol s.type = RedactAction.anonymize) :
    processSpan pol gen st s =
      (⟨s, anonymizeToken s.type, .anonymize, false⟩, st) := by
  simp [processSpan, ha]

lemma genAux_canonical (pol : RedactionPolicy) (gen : GenOracle) :
    ∀ (l : List PiiSpan) (st : GenState) (i : Nat), i < l.length →
      actionFor pol ((l.getD i noSpan).type) ≠ RedactAction.anonymize →
      lookupC (genAux pol gen l st).2.cache (keyOf (l.getD i noSpan)) =
        some ((genAux pol gen l st).1.getD i noGen).replacement
  | [], _, i, hi, _ => by simp at hi
  | s :: rest, st, 0, _, ha => by
    have h0 := processSpan_cached pol gen st s (by simpa using ha)
    have h1 := genAux_cache_mono pol gen rest (processSpan pol gen st s).2
      (keyOf s) (processSpan pol gen st s).1.replacement h0
    simpa [genAux] using h1
  | s :: rest, st, i + 1, hi, ha => by
    have := genAux_canonical pol gen rest (processSpan pol gen st s).2 i
      (by simpa using hi) (by simpa using ha)
    simpa [genAux] using this

lemma genAux_anon_repl (pol : RedactionPolicy) (gen : GenOracle) :
    ∀ (l : List PiiSpan) (st : GenState) (i : Nat), i < l.length →
      actionFor pol ((l.getD i noSpan).type) = RedactAction.anonymize →
      (genAux pol gen l st).1.getD i noGen =
        ⟨l.getD i noSpan, anonymizeToken ((l.getD i noSpan).type),
          .anonymize, false⟩
  | [], _, i, hi, _ => by simp at hi
  | s :: rest, st, 0, _, ha => by
    have := processSpan_anon pol gen st s (by simpa using ha)
    simp [genAux, this]
  | s :: rest, st, i + 1, hi, ha => by
    have := genAux_anon_repl pol gen rest (processSpan pol gen st s).2 i
      (by simpa using hi) (by simpa using ha)
    simpa [genAux] using this

/-! ## Claim C3: caching makes identical values consistent -/

/-- **C3.** Within one job, any two detected spans with the same `type`
and the same `original_text` are assigned an identical
`replacement_text` by the Replacement Generator, in every replacement
mode: generation is cached by the key `(type, original_text)` for the
duration of the job. -/
theorem replacement_cache_consistent (pol : RedactionPolicy)
    (gen : GenOracle) (spans : List PiiSpan) (i j : Nat)
    (hi : i < spans.length) (hj : j < spans.length)
    (ht : (spans.getD i noSpan).type = (spans.getD j noSpan).type)
    (ho : (spans.getD i noSpan).original_text =
      (spans.getD j noSpan).original_text) :
    ((generate pol gen spans).getD i noGen).replacement =
      ((generate pol gen spans).getD j noGen).replacement := by
  have hk : keyOf (spans.getD i noSpan) = keyOf (spans.getD j noSpan) := by
    unfold keyOf
    rw [ht, ho]
  by_cases ha : actionFor pol (spans.getD i noSpan).type = .anonymize
  · have hi' := genAux_anon_repl pol gen spans ⟨[], 0⟩ i hi ha
    have hj' := genAux_anon_repl pol gen spans ⟨[], 0⟩ j hj (ht ▸ ha)
    unfold generate
    rw [hi', hj', ht]
  · have hi' := genAux_canonical pol gen spans ⟨[], 0⟩ i hi ha
    have hj' := genAux_canonical pol gen spans ⟨[], 0⟩ j hj
      (by rw [← ht]; exact ha)
    rw [hk] at hi'
    exact Option.some.inj (hi'.symm.trans hj')

/-- Witness for C3: two identical Name spans, against an external
capability that would answer differently on its second call, still
receive the same replacement (the second span hits the cache). -/
theorem replacement_cache_consistent_witness :
    ((generate ⟨.dummy, fun _ => .dummy_replacement, 0, true⟩
        (fun n _ _ => some (if n = 0 then "X".data else "Y".data))
        [⟨"Name", .pii, "John".data, 1, 0, 0, 0, 4⟩,
         ⟨"Name", .pii, "John".data, 1, 0, 1, 2, 6⟩]).getD 0 noGen).replacement =
      ((generate ⟨.dummy, fun _ => .dummy_replacement, 0, true⟩
        (fun n _ _ => some (if n = 0 then "X".data else "Y".data))
        [⟨"Name", .pii, "John".data, 1, 0, 0, 0, 4⟩,
         ⟨"Name", .pii, "John".data, 1, 0, 1, 2, 6⟩]).getD 1 noGen).replacement :=
  replacement_cache_consistent _ _ _ 0 1 (by norm_num) (by norm_num)
    (by decide) (by decide)

/-! ## Further generator lemmas for the anonymize mode and failure handling -/

lemma genAux_anonMode (pol : RedactionPolicy)
    (hm : pol.textMode = .anonymizeAll) (gen : GenOracle) :
    ∀ (l : List PiiSpan) (st : GenState),
      genAux pol gen l st =
        (l.map (fun s => ⟨s, anonymizeToken s.type, .anonymize, false⟩), st)
  | [], _ => rfl
  | s :: rest, st => by
    have ha : actionFor pol s.type = RedactAction.anonymize := by
      simp [actionFor, hm]
    have h1 := processSpan_anon pol gen st s ha
    have h2 := genAux_anonMode pol hm gen rest st
    simp [genAux, h1, h2]

lemma processSpan_cache_none (pol : RedactionPolicy) (gen : GenOracle)
    (st : GenState) (s : PiiSpan) (k : String × List Char)
    (h : lookupC st.cache k = none) (hne : k ≠ keyOf s) :
    lookupC (processSpan pol gen st s).2.cache k = none := by
  cases ha : actionFor pol s.type <;> simp only [processSpan, ha] <;>
    first
      | exact h
      | (rcases hl : lookupC st.cache (keyOf s) with - | v
         · rcases hg : gen st.calls s.type s.original_text with - | r' <;>
             simp [hg, lookupC, hne, h]
         · simpa using h)

lemma genAux_fresh_fail (pol : RedactionPolicy) (gen : GenOracle)
    (hgen : ∀ n t o, gen n t o = none) :
    ∀ (l : List PiiSpan) (st : GenState) (i : Nat), i < l.length →
      lookupC st.cache (keyOf (l.getD i noSpan)) = none →
      (∀ j, j < i → keyOf (l.getD j noSpan) ≠ keyOf (l.getD i noSpan)) →
      actionFor pol ((l.getD i noSpan).type) ≠ RedactAction.anonymize →
      (genAux pol gen l st).1.getD i noGen =
        ⟨l.getD i noSpan, anonymizeToken ((l.getD i noSpan).type),
          actionFor pol ((l.getD i noSpan).type), true⟩
  | [], _, i, hi, _, _, _ => by simp at hi
  | s :: rest, st, 0, _, hnone, _, ha => by
    simp only [List.getD_cons_zero] at hnone ha ⊢
    cases hact : actionFor pol s.type
    · exact absurd hact ha
    all_goals
      simp [genAux, processSpan, hact, hnone, hgen]
  | s :: rest, st, i + 1, hi, hnone, hfresh, ha => by
    simp only [List.getD_cons_succ] at hnone ha ⊢
    have hkey : keyOf ((s :: rest).getD 0 noSpan) ≠
        keyOf (rest.getD i noSpan) := by
      simpa using hfresh 0 (Nat.succ_pos i)
    have hnone' := processSpan_cache_none pol gen st s
      (keyOf (rest.getD i noSpan)) hnone (by simpa using hkey.symm)
    have hfresh' : ∀ j, j < i →
        keyOf (rest.getD j noSpan) ≠ keyOf (rest.getD i noSpan) := by
      intro j hj
      simpa using hfresh (j + 1) (by omega)
    have := genAux_fresh_fail pol gen hgen rest (processSpan pol gen st s).2
      i (by simpa using hi) hnone' hfresh' ha
    simpa [genAux] using this

/-! ## PII/PHI Detector -/

/-- Modelled from the spec: a candidate span produced by one detection
pass over a text element (§4.2) — a type, category, half-open character
range and confidence; the backend implementation is not in the repo. -/
structure Cand where
  type : String
  category : PiiCategory
  start : Nat
  stop : Nat
  confidence : ℚ
deriving DecidableEq

/-- Two candidates overlap iff their half-open character ranges
intersect. -/
def overlapsB (a b : Cand) : Bool :=
  decide (a.start < b.stop) && decide (b.start < a.stop)

/-- Modelled from the spec (§4.2): greedy acceptance — scan candidates
in the given (confidence-sorted) order, accepting one iff it does not
overlap an already-accepted span; the backend implementation is not in
the repo. -/
def greedyAccept (acc : List Cand) : List Cand → List Cand
  | [] => acc
  | c :: cs =>
    if acc.any (fun a => overlapsB a c) then greedyAccept acc cs
    else greedyAccept (acc ++ [c]) cs

/-- Descending-confidence order used to sort candidates. -/
def confGE (a b : Cand) : Prop := b.confidence ≤ a.confidence

instance : DecidableRel confGE :=
  fun a b => inferInstanceAs (Decidable (b.confidence ≤ a.confidence))

instance : IsTotal Cand confGE := ⟨fun a b => le_total b.confidence a.confidence⟩

instance : IsTrans Cand confGE := ⟨fun _ _ _ h1 h2 => le_trans h2 h1⟩

/-- Modelled from the spec (§4.2): resolve overlapping candidates per
element by sorting by confidence descending and greedily accepting
non-overlapping ones; the backend implementation is not in the repo. -/
def resolveOverlaps (cands : List Cand) : List Cand :=
  greedyAccept [] (List.insertionSort confGE cands)

/-- Modelled from the spec (§4.2): the unioned results of all detection
passes on one element's text; the backend implementation is not in the
repo. -/
def unionPasses (passes : List (List Char → List Cand))
    (content : List Char) : List Cand :=
  (passes.map (fun f => f content)).join

/-- Modelled from the spec (§4.2): per-element detection — resolve
overlaps on the union of the passes, then drop spans below the policy
confidence threshold; the backend implementation is not in the repo. -/
def detectElement (passes : List (List Char → List Cand))
    (pol : RedactionPolicy) (content : List Char) : List Cand :=
  (resolveOverlaps (unionPasses passes content)).filter
    (fun c => decide (pol.threshold ≤ c.confidence))

/-! ## Greedy-selection lemmas -/

lemma greedyAccept_mem_acc :
    ∀ (cs acc : List Cand) (a : Cand), a ∈ acc → a ∈ greedyAccept acc cs
  | [], _, _, h => h
  | c :: cs, acc, a, h => by
    unfold greedyAccept
    split
    · exact greedyAccept_mem_acc cs acc a h
    · exact greedyAccept_mem_acc cs (acc ++ [c]) a (List.mem_append_left _ h)

lemma greedyAccept_subset :
    ∀ (cs acc : List Cand) (a : Cand),
      a ∈ greedyAccept acc cs → a ∈ acc ∨ a ∈ cs
  | [], _, _, h => Or.inl h
  | c :: cs, acc, a, h => by
    unfold greedyAccept at h
    split at h
    · rcases greedyAccept_subset cs acc a h with h' | h'
      · exact Or.inl h'
      · exact Or.inr (List.mem_cons_of_mem _ h')
    · rcases greedyAccept_subset cs (acc ++ [c]) a h with h' | h'
      · rcases List.mem_append.mp h' with h'' | h''
        · exact Or.inl h''
        · refine Or.inr ?_
          rw [List.mem_singleton.mp h'']
          exact List.mem_cons_self c cs
      · exact Or.inr (List.mem_cons_of_mem _ h')

lemma greedyAccept_pairwise :
    ∀ (cs acc : List Cand),
      acc.Pairwise (fun a b => overlapsB a b = false) →
      (greedyAccept acc cs).Pairwise (fun a b => overlapsB a b = false)
  | [], _, h => h
  | c :: cs, acc, h => by
    unfold greedyAccept
    split
    · exact greedyAccept_pairwise cs acc h
    · refine greedyAccept_pairwise cs (acc ++ [c]) ?_
      rw [List.pairwise_append]
      refine ⟨h, List.pairwise_singleton _ _, ?_⟩
      intro a ha b hb
      rw [List.mem_singleton.mp hb]
      have hfalse : acc.any (fun a => overlapsB a c) = false := by
        rename_i hcond
        exact Bool.of_not_eq_true hcond
      exact Bool.eq_false_iff.mpr (List.any_eq_false.mp hfalse a ha)

lemma greedyAccept_covering :
    ∀ (cs acc : List Cand), cs.Pairwise confGE →
      (∀ a ∈ acc, ∀ c ∈ cs, c.confidence ≤ a.confidence) →
      ∀ c ∈ cs, ∃ a ∈ greedyAccept acc cs,
        a = c ∨ (overlapsB a c = true ∧ c.confidence ≤ a.confidence)
  | [], _, _, _, c, hc => by simp at hc
  | c :: cs, acc, hsort, hcross, x, hx => by
    unfold greedyAccept
    rcases List.mem_cons.mp hx with rfl | hx'
    · split
      · rename_i hcond
        obtain ⟨a, ha, hov⟩ := List.any_eq_true.mp hcond
        refine ⟨a, greedyAccept_mem_acc cs acc a ha, Or.inr ⟨by simpa using hov, ?_⟩⟩
        exact hcross a ha x (List.mem_cons_self _ _)
      · exact ⟨x, greedyAccept_mem_acc cs (acc ++ [x]) x
          (List.mem_append_right _ (List.mem_singleton_self x)), Or.inl rfl⟩
    · have hsort' := List.Pairwise.of_cons hsort
      have hhead : ∀ y ∈ cs, y.confidence ≤ c.confidence := by
        intro y hy
        exact (List.pairwise_cons.mp hsort).1 y hy
      split
      · refine greedyAccept_covering cs acc hsort' ?_ x hx'
        intro a ha y hy
        exact hcross a ha y (List.mem_cons_of_mem _ hy)
      · refine greedyAccept_covering cs (acc ++ [c]) hsort' ?_ x hx'
        intro a ha y hy
        rcases List.mem_append.mp ha with ha' | ha'
        · exact hcross a ha' y (List.mem_cons_of_mem _ hy)
        · rw [List.mem_singleton.mp ha']
          exact hhead y hy

/-! ## Claim C5: greedy highest-confidence non-overlapping covering set -/

/-- **C5.** Per text element, the detector's overlap resolution applied
to the unioned results of all detection passes yields a greedy
highest-confidence non-overlapping covering set: the accepted spans are
pairwise non-overlapping in character range, every accepted span comes
from the union of the passes, and every candidate of the union is
either accepted or overlaps an accepted span of confidence at least its
own. -/
theorem detect_greedy_selection (passes : List (List Char → List Cand))
    (content : List Char) :
    (resolveOverlaps (unionPasses passes content)).Pairwise
      (fun a b => overlapsB a b = false) ∧
    (∀ c ∈ resolveOverlaps (unionPasses passes content),
      c ∈ unionPasses passes content) ∧
    (∀ c ∈ unionPasses passes content,
      ∃ a ∈ resolveOverlaps (unionPasses passes content),
        a = c ∨ (overlapsB a c = true ∧ c.confidence ≤ a.confidence)) := by
  have hperm := List.perm_insertionSort confGE (unionPasses passes content)
  refine ⟨?_, ?_, ?_⟩
  · exact greedyAccept_pairwise _ [] (List.Pairwise.nil)
  · intro c hc
    rcases greedyAccept_subset _ [] c hc with h | h
    · simp at h
    · exact hperm.mem_iff.mp h
  · intro c hc
    exact greedyAccept_covering _ [] (List.sorted_insertionSort confGE _)
      (by simp) c (hperm.mem_iff.mpr hc)

/-- Witness for C5: two passes produce overlapping Name/Email
candidates; the lower-confidence one is rejected but covered by the
higher-confidence overlapping winner. -/
theorem detect_greedy_selection_witness :
    ∃ a ∈ resolveOverlaps (unionPasses
        [fun _ => [⟨"Name", .pii, 0, 4, 9/10⟩],
         fun _ => [⟨"Email", .pii, 2, 6, 1/2⟩]] "John Smith".data),
      a = ⟨"Email", .pii, 2, 6, 1/2⟩ ∨
        (overlapsB a ⟨"Email", .pii, 2, 6, 1/2⟩ = true ∧
          (1/2 : ℚ) ≤ a.confidence) :=
  (detect_greedy_selection
      [fun _ => [⟨"Name", .pii, 0, 4, 9/10⟩],
       fun _ => [⟨"Email", .pii, 2, 6, 1/2⟩]] "John Smith".data).2.2
    ⟨"Email", .pii, 2, 6, 1/2⟩ (by simp [unionPasses])

/-! ## Coordinate Mapper, Redaction Engine, Overlay & Log Builder -/

/-- A parsed document: pages of text elements, each element's content a
character list. -/
abbrev Doc := List (List (List Char))

/-- Modelled from the spec (§4.4): a successfully-mapped span location —
page, element and character range in the reference layout; the backend
implementation is not in the repo. -/
structure SpanLoc where
  page : Nat
  elem : Nat
  start : Nat
  stop : Nat
deriving DecidableEq

/-- A positioned redaction instruction consumed by the Redaction
Engine. -/
structure Instr where
  page : Nat
  elem : Nat
  start : Nat
  stop : Nat
  repl : List Char
  type : String
  original : List Char
deriving DecidableEq

/-- Modelled from the spec (§4.4, §9): the best-effort alignment
capability — for a generated span it either recovers a location or
fails non-fatally.  The source's precise alignment algorithm is not
visible in the repo (explicitly an open question in the spec), so the
mapper is injected as a function. -/
def LocateFn : Type := Doc → GenSpan → Option SpanLoc

/-- Build the positioned instruction for a mapped span. -/
def mkInstr (g : GenSpan) (l : SpanLoc) : Instr :=
  ⟨l.page, l.elem, l.start, l.stop, g.replacement, g.span.type,
    g.span.original_text⟩

/-- The contiguous segment `[a, b)` of a character list. -/
def seg (content : List Char) (a b : Nat) : List Char :=
  (content.drop a).take (b - a)

/-- Modelled from the spec (§4.5): the rendered runs of one element
after drawing its redactions in ascending character order — the
uncovered segments stay visible, each covered range shows its
replacement text; the backend implementation is not in the repo. -/
def redactRuns (content : List Char) : Nat → List Instr → List (List Char)
  | pos, [] => [seg content pos content.length]
  | pos, i :: rest =>
    seg content pos i.start :: i.repl :: redactRuns content i.stop rest

/-- Instructions addressed to element `e` of page `p`, in order. -/
def instrsFor (instrs : List Instr) (p e : Nat) : List Instr :=
  instrs.filter (fun i => decide (i.page = p) && decide (i.elem = e))

/-- Redaction of the elements of page `p`, `e` being the index of the
first element; the page's rendered runs are concatenated. -/
def redactElems (instrs : List Instr) (p : Nat) :
    Nat → List (List Char) → List (List Char)
  | _, [] => []
  | e, content :: rest =>
    redactRuns content 0 (instrsFor instrs p e) ++
      redactElems instrs p (e + 1) rest

/-- Redaction of the pages from index `p` on. -/
def redactPages (instrs : List Instr) : Nat → Doc → List (List (List Char))
  | _, [] => []
  | p, page :: rest =>
    redactElems instrs p 0 page :: redactPages instrs (p + 1) rest

/-- Modelled from the spec (§4.5): the Redaction Engine over a parsed
document — drawing is additive, page structure is preserved, each
mapped span's range is covered and shows its replacement; the backend
implementation is not in the repo. -/
def redactDoc (doc : Doc) (instrs : List Instr) : List (List (List Char)) :=
  redactPages instrs 0 doc

/-- One audit-log entry (§6 log format plus the two per-span flags). -/
structure LogEntry where
  page : Nat
  type : String
  action : RedactAction
  original : List Char
  replacement : List Char
  degraded : Bool
  location_unresolved : Bool
deriving DecidableEq

/-- Default entry used by positional `getD` lookups. -/
def noEntry : LogEntry := ⟨0, "", .anonymize, [], [], false, false⟩

/-- The aggregate metrics of the log (§6). -/
structure LogMetrics where
  total_redactions : Nat
  unique_pii_types : Nat
  total_visual_elements : Nat
  type_counts : List (String × Nat)
deriving DecidableEq

/-- The structured processing log (§6). -/
structure RedactionLog where
  redactions : List LogEntry
  metrics : LogMetrics
deriving DecidableEq

/-- Increment the count of `t`, appending a fresh key when absent. -/
def bumpCount : List (String × Nat) → String → List (String × Nat)
  | [], t => [(t, 1)]
  | (k, n) :: rest, t =>
    if t = k then (k, n + 1) :: rest else (k, n) :: bumpCount rest t

/-- Modelled from the spec (§4.6): group the logged spans by type and
count them; the backend implementation is not in the repo. -/
def countsOf (types : List String) : List (String × Nat) :=
  types.foldl bumpCount []

/-- The log entry of one span together with its mapping outcome. -/
def mkEntry (g : GenSpan) (l : Option SpanLoc) : LogEntry :=
  ⟨(match l with | some loc => loc.page | none => g.span.page),
   g.span.type, g.action, g.span.original_text, g.replacement,
   g.degraded, l.isNone⟩

/-- Modelled from the spec (§4.6): the Overlay & Log Builder — one
entry per span (unresolved ones retained and flagged),
`type_counts` grouping all entries by type, `total_redactions`
counting only the spans actually applied, `unique_pii_types` the
number of grouped types, `total_visual_elements` the count of handled
image elements (images carry no text and are outside the text model of
this file); the backend implementation is not in the repo. -/
def buildLog (pairs : List (GenSpan × Option SpanLoc)) (visuals : Nat) :
    RedactionLog :=
  let entries := pairs.map (fun pr => mkEntry pr.1 pr.2)
  let counts := countsOf (entries.map (fun e => e.type))
  ⟨entries,
   ⟨(entries.filter (fun e => !e.location_unresolved)).length,
    counts.length, visuals, counts⟩⟩

/-! ## Detector over a document -/

/-- The span built from an accepted candidate of element `e` on page
`p`: the exact detected substring plus the text-space location. -/
def toSpan (p e : Nat) (content : List Char) (c : Cand) : PiiSpan :=
  ⟨c.type, c.category, seg content c.start c.stop, c.confidence,
    p, e, c.start, c.stop⟩

/-- Detection over the elements of page `p` starting at element `e`. -/
def detectElems (passes : List (List Char → List Cand))
    (pol : RedactionPolicy) (p : Nat) :
    Nat → List (List Char) → List PiiSpan
  | _, [] => []
  | e, content :: rest =>
    (detectElement passes pol content).map (toSpan p e content) ++
      detectElems passes pol p (e + 1) rest

/-- Detection over the pages from index `p` on. -/
def detectPages (passes : List (List Char → List Cand))
    (pol : RedactionPolicy) : Nat → Doc → List PiiSpan
  | _, [] => []
  | p, page :: rest =>
    detectElems passes pol p 0 page ++ detectPages passes pol (p + 1) rest

/-- Modelled from the spec (§4.2): the Detector over a whole parsed
document, operating per text element so every span carries its page
reference; the backend implementation is not in the repo. -/
def detectDoc (passes : List (List Char → List Cand))
    (pol : RedactionPolicy) (doc : Doc) : List PiiSpan :=
  detectPages passes pol 0 doc

/-! ## The pipeline run -/

/-- The generated spans of one job paired with their mapping outcome. -/
def jobPairs (passes : List (List Char → List Cand))
    (pol : RedactionPolicy) (gen : GenOracle) (locate : LocateFn)
    (doc : Doc) : List (GenSpan × Option SpanLoc) :=
  (generate pol gen (detectDoc passes pol doc)).map
    (fun g => (g, locate doc g))

/-- The positioned instructions of the successfully-mapped spans. -/
def jobInstrs (passes : List (List Char → List Cand))
    (pol : RedactionPolicy) (gen : GenOracle) (locate : LocateFn)
    (doc : Doc) : List Instr :=
  (jobPairs passes pol gen locate doc).filterMap
    (fun pr => pr.2.map (fun loc => mkInstr pr.1 loc))

/-- Job status as tracked by the external API layer (§3 `Job`). -/
inductive JobStatus
  | uploaded
  | processing
  | completed
  | failed
deriving DecidableEq

/-- The observable outcome of one pipeline run: the final job status
with failure stage and error detail, the exposed artifact names, and
the produced log and rendered document. -/
structure RunResult where
  status : JobStatus
  failedStage : Option String
  error : Option String
  result_files : List String
  log : Option RedactionLog
  rendered : Option (List (List (List Char)))

/-- Modelled from the spec (§2 control flow, §4.6 state machine, §7):
one pipeline run.  A parse failure is fatal — the job fails carrying
stage name `parsed` and the error detail and exposes no artifacts.
Otherwise detection, generation, mapping, redaction and log building
run to completion; per-span degradations (generation failure,
unresolved location) never fail the job.  The backend implementation
is not in the repo. -/
def runJob (parse : List Nat → Except String Doc)
    (passes : List (List Char → List Cand)) (pol : RedactionPolicy)
    (gen : GenOracle) (locate : LocateFn) (bytes : List Nat) : RunResult :=
  match parse bytes with
  | .error e => ⟨.failed, some "parsed", some e, [], none, none⟩
  | .ok doc =>
    ⟨.completed, none, none,
     ["redacted.pdf"] ++ (if pol.createOverlay then ["overlay.pdf"] else [])
       ++ ["log.json"],
     some (buildLog (jobPairs passes pol gen locate doc) 0),
     some (redactDoc doc (jobInstrs passes pol gen locate doc))⟩

/-! ## Textual containment -/

/-- Whether `o` occurs contiguously inside `r`. -/
def containsSeg (r o : List Char) : Bool :=
  (List.range (r.length + 1)).any (fun j => decide (o <+: r.drop j))

/-- Whether some rendered run of a page contains `o`. -/
def pageContains (runs : List (List Char)) (o : List Char) : Bool :=
  runs.any (fun r => containsSeg r o)

/-- Whether some rendered run of the whole document contains `o`. -/
def docContains (pages : List (List (List Char))) (o : List Char) : Bool :=
  pages.any (fun pg => pageContains pg o)

/-- Every occurrence of `o` in `content` lies inside the range covered
by some instruction of `il`. -/
def coversAll (content : List Char) (il : List Instr) (o : List Char) :
    Prop :=
  ∀ j, j < content.length → o <+: content.drop j →
    ∃ ins ∈ il, ins.start ≤ j ∧ j + o.length ≤ ins.stop

instance (content : List Char) (il : List Instr) (o : List Char) :
    Decidable (coversAll content il o) := by
  unfold coversAll
  infer_instance

/-- Instruction ranges are in ascending order starting at `pos`, within
the element length. -/
def validChain (len : Nat) : Nat → List Instr → Bool
  | _, [] => true
  | pos, i :: rest =>
    decide (pos ≤ i.start) && decide (i.start ≤ i.stop) &&
      decide (i.stop ≤ len) && validChain len i.stop rest

/-! ## Claim C7: parse failure is fatal with no artifacts -/

/-- **C7.** If parsing the input bytes fails, the job transitions to
`failed` carrying the stage name `parsed` and the error detail, and no
result artifacts are exposed: `result_files` is empty and neither a
log nor a rendered output exists. -/
theorem parse_failure_fatal (parse : List Nat → Except String Doc)
    (passes : List (List Char → List Cand)) (pol : RedactionPolicy)
    (gen : GenOracle) (locate : LocateFn) (bytes : List Nat) (e : String)
    (hparse : parse bytes = Except.error e) :
    runJob parse passes pol gen locate bytes =
      ⟨.failed, some "parsed", some e, [], none, none⟩ := by
  simp [runJob, hparse]

/-- Witness for C7: malformed bytes whose parse fails produce a failed
job with stage `parsed` and no artifacts. -/
theorem parse_failure_fatal_witness :
    runJob (fun _ => .error "not a valid PDF") []
      ⟨.dummy, fun _ => .anonymize, 0, true⟩ (fun _ _ _ => none)
      (fun _ _ => none) [37, 80, 68, 70] =
      ⟨.failed, some "parsed", some "not a valid PDF", [], none, none⟩ :=
  parse_failure_fatal _ _ _ _ _ _ _ rfl

/-! ## Counting lemmas for the log metrics -/

lemma bumpCount_sum (m : List (String × Nat)) (t : String) :
    ((bumpCount m t).map Prod.snd).sum = ((m.map Prod.snd).sum) + 1 := by
  induction m with
  | nil => simp [bumpCount]
  | cons kv rest ih =>
    obtain ⟨k, n⟩ := kv
    by_cases h : t = k
    · simp [bumpCount, h]
      omega
    · simp [bumpCount, h, ih]
      omega

lemma foldl_bumpCount_sum :
    ∀ (ts : List String) (m : List (String × Nat)),
      (((ts.foldl bumpCount m).map Prod.snd).sum) =
        ((m.map Prod.snd).sum) + ts.length
  | [], m => by simp
  | t :: ts, m => by
    rw [List.foldl_cons, foldl_bumpCount_sum ts (bumpCount m t),
      bumpCount_sum]
    simp
    omega

lemma bumpCount_keys_mem (m : List (String × Nat)) (t x : String) :
    x ∈ (bumpCount m t).map Prod.fst ↔ x ∈ m.map Prod.fst ∨ x = t := by
  induction m with
  | nil => simp [bumpCount]
  | cons kv rest ih =>
    obtain ⟨k, n⟩ := kv
    by_cases h : t = k
    · subst h
      simp [bumpCount]
      tauto
    · simp [bumpCount, h, ih]
      tauto

lemma bumpCount_keys_nodup (m : List (String × Nat)) (t : String)
    (h : (m.map Prod.fst).Nodup) : ((bumpCount m t).map Prod.fst).Nodup := by
  induction m with
  | nil => simp [bumpCount]
  | cons kv rest ih =>
    obtain ⟨k, n⟩ := kv
    rw [List.map_cons, List.nodup_cons] at h
    by_cases ht : t = k
    · simpa [bumpCount, ht, List.nodup_cons] using h
    · rw [show bumpCount ((k, n) :: rest) t =
        (k, n) :: bumpCount rest t by simp [bumpCount, ht]]
      rw [List.map_cons, List.nodup_cons]
      refine ⟨?_, ih h.2⟩
      rw [bumpCount_keys_mem]
      push_neg
      exact ⟨h.1, fun he => ht he.symm⟩

lemma foldl_bumpCount_keys_mem :
    ∀ (ts : List String) (m : List (String × Nat)) (x : String),
      x ∈ (ts.foldl bumpCount m).map Prod.fst ↔
        x ∈ m.map Prod.fst ∨ x ∈ ts
  | [], m, x => by simp
  | t :: ts, m, x => by
    rw [List.foldl_cons, foldl_bumpCount_keys_mem ts (bumpCount m t) x,
      bumpCount_keys_mem]
    simp
    tauto

lemma foldl_bumpCount_keys_nodup :
    ∀ (ts : List String) (m : List (String × Nat)),
      (m.map Prod.fst).Nodup → ((ts.foldl bumpCount m).map Prod.fst).Nodup
  | [], _, h => h
  | t :: ts, m, h =>
    foldl_bumpCount_keys_nodup ts (bumpCount m t) (bumpCount_keys_nodup m t h)

lemma countsOf_sum (ts : List String) :
    ((countsOf ts).map Prod.snd).sum = ts.length := by
  unfold countsOf
  rw [foldl_bumpCount_sum]
  simp

lemma countsOf_length (ts : List String) :
    (countsOf ts).length = ts.dedup.length := by
  have hmem : ∀ x, x ∈ (countsOf ts).map Prod.fst ↔ x ∈ ts := by
    intro x
    unfold countsOf
    rw [foldl_bumpCount_keys_mem]
    simp
  have hnodup : ((countsOf ts).map Prod.fst).Nodup :=
    foldl_bumpCount_keys_nodup ts [] (by simp)
  have hfin : ((countsOf ts).map Prod.fst).toFinset = ts.toFinset := by
    ext x
    simp only [List.mem_toFinset]
    exact hmem x
  calc (countsOf ts).length
      = ((countsOf ts).map Prod.fst).length := (List.length_map _ _).symm
    _ = ((countsOf ts).map Prod.fst).dedup.length := by
        rw [List.Nodup.dedup hnodup]
    _ = ((countsOf ts).map Prod.fst).toFinset.card :=
        (List.card_toFinset _).symm
    _ = ts.toFinset.card := by rw [hfin]
    _ = ts.dedup.length := List.card_toFinset ts

lemma length_filter_split {α : Type} (l : List α) (p : α → Bool) :
    (l.filter p).length + (l.filter (fun a => !(p a))).length = l.length := by
  induction l with
  | nil => simp
  | cons a rest ih =>
    by_cases h : p a = true
    · simp [List.filter_cons, h]
      omega
    · rw [Bool.not_eq_true] at h
      simp [List.filter_cons, h]
      omega

/-! ## Claim C4: log metric consistency -/

/-- **C4.** For every completed run's log: the values of
`metrics.type_counts` sum to `metrics.total_redactions` plus the number
of entries flagged `location_unresolved`, and `metrics.unique_pii_types`
equals the number of keys of `type_counts`, which is the cardinality of
the grouping of the logged spans by type. -/
theorem log_metrics_consistent (pairs : List (GenSpan × Option SpanLoc))
    (visuals : Nat) :
    (((buildLog pairs visuals).metrics.type_counts).map Prod.snd).sum =
      (buildLog pairs visuals).metrics.total_redactions +
        ((buildLog pairs visuals).redactions.filter
          (fun e => e.location_unresolved)).length ∧
    (buildLog pairs visuals).metrics.unique_pii_types =
      (buildLog pairs visuals).metrics.type_counts.length ∧
    (buildLog pairs visuals).metrics.type_counts.length =
      (((buildLog pairs visuals).redactions.map
        (fun e => e.type)).dedup).length := by
  refine ⟨?_, rfl, ?_⟩
  · show ((countsOf _).map Prod.snd).sum = _
    rw [countsOf_sum]
    have hsplit := length_filter_split
      (pairs.map (fun pr => mkEntry pr.1 pr.2))
      (fun e => !e.location_unresolved)
    simp only [Bool.not_not] at hsplit
    simp only [buildLog]
    rw [List.length_map]
    omega
  · exact countsOf_length _

/-! ## Claim C2: no detections leave the document unchanged -/

lemma seg_zero_length (c : List Char) : seg c 0 c.length = c := by
  simp [seg]

lemma redactElems_nil (p : Nat) :
    ∀ (elems : List (List Char)) (e : Nat), redactElems [] p e elems = elems
  | [], _ => rfl
  | c :: rest, e => by
    have h : instrsFor [] p e = [] := rfl
    simp [redactElems, h, redactRuns, seg_zero_length,
      redactElems_nil p rest (e + 1)]

lemma redactPages_nil : ∀ (doc : Doc) (p : Nat), redactPages [] p doc = doc
  | [], _ => rfl
  | page :: rest, p => by
    simp [redactPages, redactElems_nil, redactPages_nil rest (p + 1)]

lemma redactDoc_nil (doc : Doc) : redactDoc doc [] = doc :=
  redactPages_nil doc 0

/-- **C2.** If the detector finds zero sensitive spans in the parsed
document, the pipeline changes no content: the rendered output equals
the input document page for page and element for element, the log's
`metrics.total_redactions` is 0, and the job completes. -/
theorem no_spans_identity (parse : List Nat → Except String Doc)
    (passes : List (List Char → List Cand)) (pol : RedactionPolicy)
    (gen : GenOracle) (locate : LocateFn) (bytes : List Nat) (doc : Doc)
    (hparse : parse bytes = Except.ok doc)
    (hdet : detectDoc passes pol doc = []) :
    (runJob parse passes pol gen locate bytes).rendered = some doc ∧
    ((runJob parse passes pol gen locate bytes).log).map
      (fun lg => lg.metrics.total_redactions) = some 0 ∧
    (runJob parse passes pol gen locate bytes).status = .completed := by
  have hgen : generate pol gen (detectDoc passes pol doc) = [] := by
    rw [hdet]
    rfl
  have hpairs : jobPairs passes pol gen locate doc = [] := by
    simp [jobPairs, hgen]
  have hinstr : jobInstrs passes pol gen locate doc = [] := by
    simp [jobInstrs, hpairs]
  refine ⟨?_, ?_, ?_⟩ <;>
    simp [runJob, hparse, hpairs, hinstr, redactDoc_nil, buildLog]

/-- Witness for C2: a one-page document with no detection passes is
rendered unchanged with zero redactions. -/
theorem no_spans_identity_witness :
    (runJob (fun _ => .ok [["hello world".data]]) []
      ⟨.dummy, fun _ => .dummy_replacement, 0, true⟩ (fun _ _ _ => none)
      (fun _ _ => none) []).rendered = some [["hello world".data]] ∧
    ((runJob (fun _ => .ok [["hello world".data]]) []
      ⟨.dummy, fun _ => .dummy_replacement, 0, true⟩ (fun _ _ _ => none)
      (fun _ _ => none) []).log).map
        (fun lg => lg.metrics.total_redactions) = some 0 ∧
    (runJob (fun _ => .ok [["hello world".data]]) []
      ⟨.dummy, fun _ => .dummy_replacement, 0, true⟩ (fun _ _ _ => none)
      (fun _ _ => none) []).status = .completed :=
  no_spans_identity _ _ _ _ _ _ _ rfl rfl

/-! ## Claim C9: anonymize mode is deterministic and call-free -/

/-- **C9.** With `text_redaction_mode = anonymize`, the replacements the
pipeline produces do not depend on the external generation capability
at all: two runs with arbitrary (even disagreeing) capabilities produce
identical generator output and identical whole-job results, every
replacement is the placeholder token determined by the span's type
alone, and no external call is made (the call counter stays 0). -/
theorem anonymize_mode_deterministic (pol : RedactionPolicy)
    (hm : pol.textMode = .anonymizeAll) (g1 g2 : GenOracle)
    (spans : List PiiSpan) (parse : List Nat → Except String Doc)
    (passes : List (List Char → List Cand)) (locate : LocateFn)
    (bytes : List Nat) :
    generate pol g1 spans = generate pol g2 spans ∧
    (∀ g ∈ generate pol g1 spans,
      g.replacement = anonymizeToken g.span.type) ∧
    (genAux pol g1 spans ⟨[], 0⟩).2.calls = 0 ∧
    runJob parse passes pol g1 locate bytes =
      runJob parse passes pol g2 locate bytes := by
  have h1 := genAux_anonMode pol hm g1
  have h2 := genAux_anonMode pol hm g2
  have hgen : ∀ l, generate pol g1 l = generate pol g2 l := by
    intro l
    unfold generate
    rw [h1, h2]
  refine ⟨hgen spans, ?_, ?_, ?_⟩
  · intro g hg
    unfold generate at hg
    rw [h1] at hg
    simp only [List.mem_map] at hg
    obtain ⟨s, -, rfl⟩ := hg
    rfl
  · rw [h1]
  · cases hp : parse bytes with
    | error e => simp [runJob, hp]
    | ok doc => simp [runJob, hp, jobPairs, jobInstrs, hgen]

/-- Witness for C9: a Name span under anonymize mode gets the same
token whether the external capability answers or is unreachable. -/
theorem anonymize_mode_deterministic_witness :
    generate ⟨.anonymizeAll, fun _ => .dummy_replacement, 0, true⟩
      (fun _ _ _ => some "Alex".data)
      [⟨"Name", .pii, "John".data, 1, 0, 0, 0, 4⟩] =
    generate ⟨.anonymizeAll, fun _ => .dummy_replacement, 0, true⟩
      (fun _ _ _ => none)
      [⟨"Name", .pii, "John".data, 1, 0, 0, 0, 4⟩] :=
  (anonymize_mode_deterministic
    ⟨.anonymizeAll, fun _ => .dummy_replacement, 0, true⟩ rfl
    (fun _ _ _ => some "Alex".data) (fun _ _ _ => none)
    [⟨"Name", .pii, "John".data, 1, 0, 0, 0, 4⟩]
    (fun _ => .error "") [] (fun _ _ => none) []).1

/-! ## Claim C6: per-span generation failure degrades, never fails the job -/

lemma getD_map_of_lt {α β : Type} (f : α → β) (l : List α) (i : Nat)
    (h : i < l.length) (d : β) (d' : α) :
    (l.map f).getD i d = f (l.getD i d') := by
  have h1 : i < (l.map f).length := by simpa using h
  rw [List.getD_eq_getElem _ _ h1, List.getD_eq_getElem _ _ h]
  simp

/-- Default span/location pair used by positional `getD` lookups. -/
def noPair : GenSpan × Option SpanLoc := (noGen, none)

/-- **C6.** If the external replacement-generation capability fails,
then a span whose resolved action needs it (and whose key was not
already cached by an earlier span) receives the `anonymize` placeholder
for its type as `replacement_text`, its log entry carries the
degraded-action flag, and the job still reaches status `completed` — a
per-span generation failure never fails the whole job. -/
theorem generation_failure_degrades (parse : List Nat → Except String Doc)
    (passes : List (List Char → List Cand)) (pol : RedactionPolicy)
    (gen : GenOracle) (locate : LocateFn) (bytes : List Nat) (doc : Doc)
    (i : Nat)
    (hparse : parse bytes = Except.ok doc)
    (hgen : ∀ n t o, gen n t o = none)
    (hi : i < (detectDoc passes pol doc).length)
    (hact : actionFor pol ((detectDoc passes pol doc).getD i noSpan).type ≠
      RedactAction.anonymize)
    (hfresh : ∀ j, j < i →
      keyOf ((detectDoc passes pol doc).getD j noSpan) ≠
        keyOf ((detectDoc passes pol doc).getD i noSpan)) :
    (runJob parse passes pol gen locate bytes).status = .completed ∧
    ∀ lg, (runJob parse passes pol gen locate bytes).log = some lg →
      (lg.redactions.getD i noEntry).replacement =
        anonymizeToken ((detectDoc passes pol doc).getD i noSpan).type ∧
      (lg.redactions.getD i noEntry).degraded = true := by
  have hg := genAux_fresh_fail pol gen hgen (detectDoc passes pol doc)
    ⟨[], 0⟩ i hi rfl hfresh hact
  have hilen : i < (generate pol gen (detectDoc passes pol doc)).length := by
    rw [show (generate pol gen (detectDoc passes pol doc)).length =
      (detectDoc passes pol doc).length from genAux_length pol gen _ _]
    exact hi
  have hpl : i < (jobPairs passes pol gen locate doc).length := by
    unfold jobPairs
    simpa using hilen
  refine ⟨by simp [runJob, hparse], ?_⟩
  intro lg hlg
  have hlg' : lg = buildLog (jobPairs passes pol gen locate doc) 0 := by
    simp only [runJob, hparse] at hlg
    exact (Option.some.inj hlg).symm
  subst hlg'
  have e1 : (buildLog (jobPairs passes pol gen locate doc) 0).redactions.getD
      i noEntry =
      mkEntry ((jobPairs passes pol gen locate doc).getD i noPair).1
        ((jobPairs passes pol gen locate doc).getD i noPair).2 := by
    show ((jobPairs passes pol gen locate doc).map
      (fun pr => mkEntry pr.1 pr.2)).getD i noEntry = _
    rw [getD_map_of_lt _ _ i hpl noEntry noPair]
  have e2 : (jobPairs passes pol gen locate doc).getD i noPair =
      ((generate pol gen (detectDoc passes pol doc)).getD i noGen,
       locate doc ((generate pol gen (detectDoc passes pol doc)).getD i
         noGen)) := by
    unfold jobPairs
    rw [getD_map_of_lt _ _ i hilen noPair noGen]
  rw [e1, e2]
  have hg' : (generate pol gen (detectDoc passes pol doc)).getD i noGen =
      ⟨(detectDoc passes pol doc).getD i noSpan,
        anonymizeToken (((detectDoc passes pol doc).getD i noSpan).type),
        actionFor pol (((detectDoc passes pol doc).getD i noSpan).type),
        true⟩ := hg
  rw [hg']
  exact ⟨rfl, rfl⟩

/-- Witness for C6: the capability is unreachable, the single Name span
degrades to the anonymize token with the degraded flag, and the job
completes. -/
theorem generation_failure_degrades_witness :
    (runJob (fun _ => .ok [["John".data]])
      [fun _ => [⟨"Name", .pii, 0, 4, 1⟩]]
      ⟨.dummy, fun _ => .dummy_replacement, 0, true⟩ (fun _ _ _ => none)
      (fun _ _ => none) []).status = .completed ∧
    ∀ lg, (runJob (fun _ => .ok [["John".data]])
      [fun _ => [⟨"Name", .pii, 0, 4, 1⟩]]
      ⟨.dummy, fun _ => .dummy_replacement, 0, true⟩ (fun _ _ _ => none)
      (fun _ _ => none) []).log = some lg →
      (lg.redactions.getD 0 noEntry).replacement =
        anonymizeToken (((detectDoc [fun _ => [⟨"Name", .pii, 0, 4, 1⟩]]
          ⟨.dummy, fun _ => .dummy_replacement, 0, true⟩
          [["John".data]]).getD 0 noSpan).type) ∧
      (lg.redactions.getD 0 noEntry).degraded = true :=
  generation_failure_degrades (fun _ => .ok [["John".data]])
    [fun _ => [⟨"Name", .pii, 0, 4, 1⟩]]
    ⟨.dummy, fun _ => .dummy_replacement, 0, true⟩ (fun _ _ _ => none)
    (fun _ _ => none) [] [["John".data]] 0 rfl (fun _ _ _ => rfl)
    (by decide) (by decide) (fun j hj => absurd hj (Nat.not_lt_zero j))

/-! ## Rendered-run characterisation lemmas -/

lemma validChain_parts (len pos : Nat) (ins : Instr) (rest : List Instr)
    (h : validChain len pos (ins :: rest) = true) :
    pos ≤ ins.start ∧ ins.start ≤ ins.stop ∧ ins.stop ≤ len ∧
      validChain len ins.stop rest = true := by
  simp only [validChain, Bool.and_eq_true, decide_eq_true_eq] at h
  tauto

lemma validChain_start (len : Nat) :
    ∀ (il : List Instr) (pos : Nat), validChain len pos il = true →
      ∀ ins ∈ il, pos ≤ ins.start
  | [], _, _, ins, hins => by simp at hins
  | i :: rest, pos, h, ins, hins => by
    obtain ⟨h1, h2, h3, h4⟩ := validChain_parts len pos i rest h
    rcases List.mem_cons.mp hins with rfl | hins'
    · exact h1
    · have := validChain_start len rest i.stop h4 ins hins'
      omega

lemma redactRuns_charac (content : List Char) :
    ∀ (il : List Instr) (pos : Nat),
      validChain content.length pos il = true →
      ∀ r ∈ redactRuns content pos il,
        (∃ ins ∈ il, r = ins.repl) ∨
        ∃ a b, r = seg content a b ∧ pos ≤ a ∧
          ∀ ins ∈ il, b ≤ ins.start ∨ ins.stop ≤ a
  | [], pos, _, r, hr => by
    right
    simp only [redactRuns, List.mem_singleton] at hr
    exact ⟨pos, content.length, hr, le_refl pos, by simp⟩
  | i :: rest, pos, hv, r, hr => by
    obtain ⟨h1, h2, h3, h4⟩ := validChain_parts content.length pos i rest hv
    simp only [redactRuns, List.mem_cons] at hr
    rcases hr with rfl | hr'
    · right
      refine ⟨pos, i.start, rfl, le_refl pos, ?_⟩
      intro ins hins
      rcases List.mem_cons.mp hins with rfl | hins'
      · exact Or.inl (le_refl _)
      · left
        have := validChain_start content.length rest i.stop h4 ins hins'
        omega
    rcases hr' with rfl | hr''
    · exact Or.inl ⟨i, List.mem_cons_self _ _, rfl⟩
    · rcases redactRuns_charac content rest i.stop h4 r hr'' with
        ⟨ins, hins, he⟩ | ⟨a, b, he, ha, hd⟩
      · exact Or.inl ⟨ins, List.mem_cons_of_mem _ hins, he⟩
      · right
        refine ⟨a, b, he, by omega, ?_⟩
        intro ins hins
        rcases List.mem_cons.mp hins with rfl | hins'
        · right
          omega
        · exact hd ins hins'

lemma containsSeg_iff (r o : List Char) :
    containsSeg r o = true ↔ ∃ j, o <+: r.drop j := by
  unfold containsSeg
  rw [List.any_eq_true]
  constructor
  · rintro ⟨j, -, hj⟩
    exact ⟨j, of_decide_eq_true hj⟩
  · rintro ⟨j, hj⟩
    rcases le_or_lt j r.length with hle | hlt
    · exact ⟨j, List.mem_range.mpr (by omega), decide_eq_true hj⟩
    · refine ⟨r.length, List.mem_range.mpr (by omega), decide_eq_true ?_⟩
      rw [List.drop_length]
      rw [List.drop_eq_nil_of_le (by omega)] at hj
      exact hj

lemma containsSeg_self (r : List Char) : containsSeg r r = true := by
  rw [containsSeg_iff]
  exact ⟨0, by simp⟩

lemma seg_not_contains (content o : List Char) (il : List Instr)
    (a b : Nat)
    (hdisj : ∀ ins ∈ il, b ≤ ins.start ∨ ins.stop ≤ a)
    (hcov : coversAll content il o) (hne : o ≠ []) :
    containsSeg (seg content a b) o = false := by
  rw [Bool.eq_false_iff]
  intro htrue
  obtain ⟨j, hpre⟩ := (containsSeg_iff _ _).mp htrue
  simp only [seg] at hpre
  rw [List.drop_take, List.drop_drop] at hpre
  have hlen : o.length ≤ b - a - j :=
    le_trans hpre.length_le (List.length_take_le _ _)
  have hpre' : o <+: content.drop (a + j) :=
    hpre.trans ( List.take_prefix _ _)
  have hne' : 0 < o.length := List.length_pos.mpr hne
  have hj : a + j < content.length := by
    by_contra hge
    push_neg at hge
    rw [List.drop_eq_nil_of_le hge] at hpre'
    have hlen0 := hpre'.length_le
    simp only [List.length_nil] at hlen0
    omega
  obtain ⟨ins, hins, hs1, hs2⟩ := hcov (a + j) hj hpre'
  rcases hdisj ins hins with h3 | h3 <;> omega

lemma repl_mem_redactRuns (content : List Char) :
    ∀ (il : List Instr) (pos : Nat) (ins : Instr), ins ∈ il →
      ins.repl ∈ redactRuns content pos il
  | [], _, _, h => by simp at h
  | i :: rest, pos, ins, h => by
    rcases List.mem_cons.mp h with rfl | h'
    · simp [redactRuns]
    · simp only [redactRuns, List.mem_cons]
      right
      right
      exact repl_mem_redactRuns content rest i.stop ins h'

lemma redactElems_mem (instrs : List Instr) (p : Nat) :
    ∀ (elems : List (List Char)) (e : Nat) (r : List Char),
      r ∈ redactElems instrs p e elems →
      ∃ k, k < elems.length ∧
        r ∈ redactRuns (elems.getD k []) 0 (instrsFor instrs p (e + k))
  | [], _, _, h => by simp [redactElems] at h
  | c :: rest, e, r, h => by
    rcases List.mem_append.mp h with h' | h'
    · exact ⟨0, by simp, by simpa using h'⟩
    · obtain ⟨k, hk, hr⟩ := redactElems_mem instrs p rest (e + 1) r h'
      refine ⟨k + 1, by simpa using hk, ?_⟩
      have harith : e + 1 + k = e + (k + 1) := by omega
      rw [← harith]
      simpa using hr

lemma redactElems_mem_rev (instrs : List Instr) (p : Nat) :
    ∀ (elems : List (List Char)) (e k : Nat) (r : List Char),
      k < elems.length →
      r ∈ redactRuns (elems.getD k []) 0 (instrsFor instrs p (e + k)) →
      r ∈ redactElems instrs p e elems
  | [], _, _, _, hk, _ => by simp at hk
  | c :: rest, e, 0, r, _, hr => by
    refine List.mem_append_left _ ?_
    simpa using hr
  | c :: rest, e, k + 1, r, hk, hr => by
    refine List.mem_append_right _ ?_
    refine redactElems_mem_rev instrs p rest (e + 1) k r (by simpa using hk) ?_
    have harith : e + 1 + k = e + (k + 1) := by omega
    rw [harith]
    simpa using hr

lemma redactPages_mem (instrs : List Instr) :
    ∀ (pages : Doc) (p : Nat) (pg : List (List Char)),
      pg ∈ redactPages instrs p pages →
      ∃ k, k < pages.length ∧
        pg = redactElems instrs (p + k) 0 (pages.getD k [])
  | [], _, _, h => by simp [redactPages] at h
  | page :: rest, p, pg, h => by
    rcases List.mem_cons.mp h with rfl | h'
    · exact ⟨0, by simp, by simp⟩
    · obtain ⟨k, hk, he⟩ := redactPages_mem instrs rest (p + 1) pg h'
      refine ⟨k + 1, by simpa using hk, ?_⟩
      have harith : p + 1 + k = p + (k + 1) := by omega
      rw [← harith]
      simpa using he

lemma redactPages_getD (instrs : List Instr) :
    ∀ (pages : Doc) (p k : Nat), k < pages.length →
      (redactPages instrs p pages).getD k [] =
        redactElems instrs (p + k) 0 (pages.getD k [])
  | [], _, _, hk => by simp at hk
  | page :: rest, p, 0, _ => by simp [redactPages]
  | page :: rest, p, k + 1, hk => by
    have := redactPages_getD instrs rest (p + 1) k (by simpa using hk)
    simp only [redactPages, List.getD_cons_succ]
    rw [this]
    congr 1
    omega

lemma instrsFor_subset (instrs : List Instr) (p e : Nat) :
    ∀ ins ∈ instrsFor instrs p e, ins ∈ instrs :=
  fun _ h => List.mem_of_mem_filter h

/-! ## Claim C1: a mapped span is logged, hidden and replaced -/

/-- **C1.** For a detected sensitive span of type `X` whose location is
successfully mapped: the redaction log contains an entry with
`type = X` (and the run's log is exactly that log), and — provided the
mapped instructions are well-formed, they cover every occurrence of the
span's `original_text` in the document, and no replacement text
reintroduces it — the rendered redacted output contains no occurrence
of the span's `original_text`, while the mapped page's rendering does
contain the span's `replacement_text`. -/
theorem redaction_span_correct (parse : List Nat → Except String Doc)
    (passes : List (List Char → List Cand)) (pol : RedactionPolicy)
    (gen : GenOracle) (locate : LocateFn) (bytes : List Nat) (doc : Doc)
    (X : String) (i : Nat) (loc : SpanLoc)
    (hparse : parse bytes = Except.ok doc)
    (hi : i < (jobPairs passes pol gen locate doc).length)
    (hX : ((jobPairs passes pol gen locate doc).getD i noPair).1.span.type
      = X)
    (hloc : ((jobPairs passes pol gen locate doc).getD i noPair).2 =
      some loc)
    (hpage : loc.page < doc.length)
    (helem : loc.elem < (doc.getD loc.page []).length)
    (hvalid : ∀ p, p < doc.length → ∀ e, e < (doc.getD p []).length →
      validChain ((doc.getD p []).getD e []).length 0
        (instrsFor (jobInstrs passes pol gen locate doc) p e) = true)
    (hcover : ∀ p, p < doc.length → ∀ e, e < (doc.getD p []).length →
      coversAll ((doc.getD p []).getD e [])
        (instrsFor (jobInstrs passes pol gen locate doc) p e)
        ((jobPairs passes pol gen locate doc).getD i
          noPair).1.span.original_text)
    (hrepl : ∀ ins ∈ jobInstrs passes pol gen locate doc,
      containsSeg ins.repl
        ((jobPairs passes pol gen locate doc).getD i
          noPair).1.span.original_text = false)
    (hne : ((jobPairs passes pol gen locate doc).getD i
      noPair).1.span.original_text ≠ []) :
    (∃ entry ∈ (buildLog (jobPairs passes pol gen locate doc) 0).redactions,
      entry.type = X) ∧
    (runJob parse passes pol gen locate bytes).log =
      some (buildLog (jobPairs passes pol gen locate doc) 0) ∧
    docContains (redactDoc doc (jobInstrs passes pol gen locate doc))
      ((jobPairs passes pol gen locate doc).getD i
        noPair).1.span.original_text = false ∧
    pageContains
      ((redactDoc doc (jobInstrs passes pol gen locate doc)).getD
        loc.page [])
      ((jobPairs passes pol gen locate doc).getD i noPair).1.replacement
      = true ∧
    (runJob parse passes pol gen locate bytes).rendered =
      some (redactDoc doc (jobInstrs passes pol gen locate doc)) := by
  have hmemP : (jobPairs passes pol gen locate doc).getD i noPair ∈
      jobPairs passes pol gen locate doc := by
    rw [List.getD_eq_getElem _ _ hi]
    exact List.getElem_mem hi
  refine ⟨?_, ?_, ?_, ?_, ?_⟩
  · refine ⟨mkEntry ((jobPairs passes pol gen locate doc).getD i noPair).1
      ((jobPairs passes pol gen locate doc).getD i noPair).2, ?_, hX⟩
    exact List.mem_map.mpr
      ⟨(jobPairs passes pol gen locate doc).getD i noPair, hmemP, rfl⟩
  · simp [runJob, hparse]
  · rw [Bool.eq_false_iff]
    intro htrue
    unfold docContains at htrue
    obtain ⟨pg, hpg, hpgc⟩ := List.any_eq_true.mp htrue
    unfold pageContains at hpgc
    obtain ⟨r, hrm, hrc⟩ := List.any_eq_true.mp hpgc
    unfold redactDoc at hpg
    obtain ⟨k, hk, rfl⟩ :=
      redactPages_mem (jobInstrs passes pol gen locate doc) doc 0 pg hpg
    rw [Nat.zero_add] at hrm
    obtain ⟨k', hk', hr⟩ :=
      redactElems_mem (jobInstrs passes pol gen locate doc) k
        (doc.getD k []) 0 r hrm
    rw [Nat.zero_add] at hr
    rcases redactRuns_charac _ _ _ (hvalid k hk k' hk') r hr with
      ⟨ins, hins, rfl⟩ | ⟨a, b, rfl, -, hd⟩
    · have hfalse := hrepl ins
        (instrsFor_subset (jobInstrs passes pol gen locate doc) k k'
          ins hins)
      rw [hfalse] at hrc
      cases hrc
    · have hfalse := seg_not_contains _ _ _ a b hd (hcover k hk k' hk') hne
      rw [hfalse] at hrc
      cases hrc
  · have hInsMem : mkInstr
        ((jobPairs passes pol gen locate doc).getD i noPair).1 loc ∈
        jobInstrs passes pol gen locate doc := by
      unfold jobInstrs
      refine List.mem_filterMap.mpr
        ⟨(jobPairs passes pol gen locate doc).getD i noPair, hmemP, ?_⟩
      rw [hloc]
      rfl
    have hInsFor : mkInstr
        ((jobPairs passes pol gen locate doc).getD i noPair).1 loc ∈
        instrsFor (jobInstrs passes pol gen locate doc) loc.page
          loc.elem := by
      refine List.mem_filter.mpr ⟨hInsMem, ?_⟩
      simp [mkInstr]
    have hrun := repl_mem_redactRuns
      ((doc.getD loc.page []).getD loc.elem [])
      (instrsFor (jobInstrs passes pol gen locate doc) loc.page loc.elem)
      0 _ hInsFor
    have hrun' : (mkInstr
        ((jobPairs passes pol gen locate doc).getD i noPair).1 loc).repl ∈
        redactElems (jobInstrs passes pol gen locate doc) loc.page 0
          (doc.getD loc.page []) := by
      refine redactElems_mem_rev (jobInstrs passes pol gen locate doc)
        loc.page (doc.getD loc.page []) 0 loc.elem _ helem ?_
      rw [Nat.zero_add]
      exact hrun
    have hgd : (redactDoc doc (jobInstrs passes pol gen locate doc)).getD
        loc.page [] =
        redactElems (jobInstrs passes pol gen locate doc) loc.page 0
          (doc.getD loc.page []) := by
      unfold redactDoc
      have := redactPages_getD (jobInstrs passes pol gen locate doc) doc 0
        loc.page hpage
      rw [Nat.zero_add] at this
      exact this
    rw [hgd]
    unfold pageContains
    exact List.any_eq_true.mpr ⟨_, hrun', containsSeg_self _⟩
  · simp [runJob, hparse]

/-- One-page witness document. -/
def wDoc : Doc := [["John Smith".data]]

/-- Witness detection pass: a Name candidate covering `John`. -/
def wPass : List Char → List Cand := fun _ => [⟨"Name", .pii, 0, 4, 1⟩]

/-- Witness policy: dummy mode, everything replaced. -/
def wPol : RedactionPolicy := ⟨.dummy, fun _ => .dummy_replacement, 0, true⟩

/-- Witness generation capability: always answers `Alex`. -/
def wGen : GenOracle := fun _ _ _ => some "Alex".data

/-- Witness mapper: aligns a span at its detected range on page 0. -/
def wLocate : LocateFn := fun _ g => some ⟨0, 0, g.span.start, g.span.stop⟩

/-- Witness parser: always succeeds with the witness document. -/
def wParse : List Nat → Except String Doc := fun _ => .ok wDoc

/-- Witness for C1: in the concrete run the log records a Name entry,
the rendered output no longer contains `John`, and page 0 shows the
replacement. -/
theorem redaction_span_correct_witness :
    (∃ entry ∈ (buildLog (jobPairs [wPass] wPol wGen wLocate wDoc)
      0).redactions, entry.type = "Name") ∧
    docContains (redactDoc wDoc (jobInstrs [wPass] wPol wGen wLocate wDoc))
      ((jobPairs [wPass] wPol wGen wLocate wDoc).getD 0
        noPair).1.span.original_text = false ∧
    pageContains
      ((redactDoc wDoc (jobInstrs [wPass] wPol wGen wLocate wDoc)).getD
        0 [])
      ((jobPairs [wPass] wPol wGen wLocate wDoc).getD 0
        noPair).1.replacement = true :=
  have h := redaction_span_correct wParse [wPass] wPol wGen wLocate []
    wDoc "Name" 0 ⟨0, 0, 0, 4⟩ rfl (by decide) (by decide) (by decide)
    (by decide) (by decide) (by decide) (by decide) (by decide) (by decide)
  ⟨h.1, h.2.2.1, h.2.2.2.1⟩
